import Mathlib

/-!
Verification of `src/evcxr/src/eval_context/compilation.rs`: the
shared-library function registry (`SharedLibFunctions`), the variable
environment (`ContextState.load_scope`), diff-based output inference
(`find_outputs`) and the analysis-workspace configuration (`tmp_config`).

The external collaborators of the file (the snippet parser/applier in
`code_block.rs` / `eval_context.rs`, the build-manifest writer in
`module.rs`, and the external type-analysis engine in `rust_analyzer.rs`)
are not part of the file under verification; following the spec they are
treated as an opaque service, modelled here as an explicit `AnalysisStep`
parameter: it consumes the snippet text and the loaded environment and
either fails or returns the updated environment with move states updated
and types resolved.
-/

namespace Compilation

/-- Error kinds, modelled from the spec (§7): parse, application,
workspace and analysis failures, all propagated verbatim. The concrete
`Error` enum lives outside the verified file. -/
inductive Error where
  | parseFailure (msg : String)
  | applicationFailure (msg : String)
  | workspaceFailure (msg : String)
  | analysisFailure (msg : String)
deriving DecidableEq, Repr

/-- `VariableMoveState` from `eval_context.rs` (declared outside the
verified file; the verified file matches on exactly these three states). -/
inductive VariableMoveState where
  | Available
  | Moved
  | New
deriving DecidableEq, Repr

/-- `VariableState` from `eval_context.rs`: the binding descriptor.
The `definition_span` payload is opaque to `compilation.rs`; it is
modelled as a pair of positions. -/
structure VariableState where
  type_name : String
  is_mut : Bool
  move_state : VariableMoveState
  definition_span : Option (Nat × Nat)
deriving DecidableEq, Repr

/-- `FunctionArg`: a (name, type) pair. -/
structure FunctionArg where
  arg_name : String
  arg_type : String
deriving DecidableEq, Repr

/-- `ParsedFunction`: name, raw body text, ordered inputs, ordered outputs. -/
structure ParsedFunction where
  name : String
  fn_body : String
  inputs : List FunctionArg
  outputs : List FunctionArg
deriving DecidableEq, Repr

/-- `SharedLibFunctions`: the append-only registry. -/
structure SharedLibFunctions where
  functions : List ParsedFunction
deriving DecidableEq, Repr

/-- The variable map `HashMap<String, VariableState>` is modelled as an
association list; `insertVar` is `HashMap::insert`: it overwrites the
value of an existing key and otherwise adds the entry. -/
abbrev VarMap : Type := List (String × VariableState)

def insertVar (m : VarMap) (k : String) (v : VariableState) : VarMap :=
  match m with
  | [] => [(k, v)]
  | (k0, v0) :: rest => if k0 = k then (k, v) :: rest else (k0, v0) :: insertVar rest k v

/-- `HashMap::get` / lookup. -/
def lookupVar (m : VarMap) (k : String) : Option VariableState :=
  match m with
  | [] => none
  | (k0, v0) :: rest => if k0 = k then some v0 else lookupVar rest k

/-- The key sequence of the map. -/
def varKeys (m : VarMap) : List String := m.map Prod.fst

/-- The fields of `ContextState` that `compilation.rs` touches: the live
variable map and the stored baseline snapshot. (The `Config` carried by
`ContextState::new` only feeds the external collaborators.) -/
structure ContextState where
  variable_states : VarMap
  stored_variable_states : VarMap
deriving DecidableEq, Repr

/-- `ContextState::new`: empty variable maps. -/
def ContextState.new : ContextState := ⟨[], []⟩

/-- The descriptor inserted by `load_scope` for a scope binding:
`is_mut=false`, `move_state=Available`, `definition_span=None`. -/
def scopeVarState (a : FunctionArg) : VariableState :=
  ⟨a.arg_type, false, VariableMoveState.Available, none⟩

/-- `ContextState::load_scope`: insert a descriptor for every scope
entry in order, then store the baseline snapshot
(`self.stored_variable_states = self.variable_states.clone()`). -/
def ContextState.load_scope (s : ContextState) (scope : List FunctionArg) : ContextState :=
  let vs := scope.foldl (fun m a => insertVar m a.arg_name (scopeVarState a)) s.variable_states
  ⟨vs, vs⟩

/-- Modelled from the spec: the combined effect on the environment of the
collaborator pipeline inside `find_outputs` — parsing the snippet
(`CodeBlock::from_original_user_code`), applying it (`ContextState::apply`,
which marks fresh bindings `New` and moved ones `Moved`), the workspace
manifest writes (`Module`), and the external type-analysis engine
(`RustAnalyzer::fix_variable_types`, which rewrites `type_name`s).  All of
this code lives outside the verified file, so it is passed in as an opaque
fallible step from snippet text and loaded environment to updated
environment. -/
def AnalysisStep : Type := String → ContextState → Except Error ContextState

/-- Modelled from the spec (§9): the live binding map is an unordered
hash map, so the iteration order of `state.variable_states.into_iter()`
in the final diff of `find_outputs` is not fixed by the source; it is
exposed as an explicit traversal function (intended to range over
permutations). -/
def IterOrder : Type := VarMap → VarMap

/-- `find_outputs`: build a fresh state, load the scope, run the
collaborator pipeline, then keep exactly the descriptors whose
`move_state == New` as `(name, type_name)` output entries. -/
def find_outputs (step : AnalysisStep) (iter : IterOrder)
    (code : String) (scope : List FunctionArg) : Except Error (List FunctionArg) :=
  match step code (ContextState.new.load_scope scope) with
  | .error e => .error e
  | .ok st =>
      .ok (((iter st.variable_states).filter
              (fun p => decide (p.2.move_state = VariableMoveState.New))).map
            (fun p => ⟨p.1, p.2.type_name⟩))

/-- `SharedLibFunctions::add_fn`: `inputs` is the scope verbatim
(`scope.to_owned()`), `outputs` comes from `find_outputs`; on error the
`?` returns early and `self` is unchanged, on success exactly one record
is pushed at the end.  The mutable receiver is modelled by returning the
updated registry next to the `Result`. -/
def SharedLibFunctions.add_fn (self : SharedLibFunctions) (step : AnalysisStep)
    (iter : IterOrder) (name fn_body : String) (scope : List FunctionArg) :
    Except Error Unit × SharedLibFunctions :=
  let inputs := scope
  match find_outputs step iter fn_body scope with
  | .error e => (.error e, self)
  | .ok outputs =>
      (.ok (), ⟨self.functions ++ [⟨name, fn_body, inputs, outputs⟩]⟩)

/-- The text emitted for one record by the loop body of
`SharedLibFunctions::code` (the braces of the Rust format string are
written here as hexadecimal escapes). -/
def ParsedFunction.render (f : ParsedFunction) : String :=
  let inputs := String.intercalate ", "
    (f.inputs.map (fun a => a.arg_name ++ ": " ++ a.arg_type))
  let outputs_types := String.intercalate " "
    (f.outputs.map (fun a => a.arg_type ++ ","))
  let outputs_vars := String.intercalate " "
    (f.outputs.map (fun a => a.arg_name ++ ","))
  "\n#[nomangle]\npub extern \"C\" fn " ++ f.name ++ "(" ++ inputs ++ ") -> (" ++
    outputs_types ++ ") \x7b\n    " ++ f.fn_body ++ ";\n    (" ++ outputs_vars ++ ")\n\x7d\n"

/-- `SharedLibFunctions::code`: starting from the empty string, push the
rendering of every record in registration order. -/
def SharedLibFunctions.code (self : SharedLibFunctions) : String :=
  self.functions.foldl (fun acc f => acc ++ f.render) ""

/-- Filesystem paths, modelled as an absoluteness flag plus components;
`PathBuf::join` replaces the base when the argument is absolute and
appends otherwise. -/
structure Path where
  absolute : Bool
  components : List String
deriving DecidableEq, Repr

def Path.is_absolute (p : Path) : Bool := p.absolute

def Path.join (p q : Path) : Path :=
  if q.absolute then q else ⟨p.absolute, p.components ++ q.components⟩

/-- The fields of `Config` that `tmp_config` sets: the workspace
directory and the final-expression display flag. -/
structure Config where
  tmpdir : Path
  display_final_expression : Bool
deriving DecidableEq, Repr

/-- Modelled from the spec: `create_initial_config` (declared outside the
verified file) seeds a configuration at the given workspace directory. -/
def create_initial_config (tmpdir : Path) : Config :=
  ⟨tmpdir, true⟩

/-- `tmp_config`, with the two I/O results (the allocated temporary
directory and the current working directory) passed as parameters: if
the temporary path is not absolute it is joined onto the current
directory, and `display_final_expression` is switched off. -/
def tmp_config (tmpdir_path cwd : Path) : Config :=
  let resolved := if tmpdir_path.is_absolute then tmpdir_path else cwd.join tmpdir_path
  let initial_config := create_initial_config resolved
  { initial_config with display_final_expression := false }

/-- The fold performed by `load_scope`, as a standalone function. -/
def loadFold (m : VarMap) (scope : List FunctionArg) : VarMap :=
  scope.foldl (fun m0 a => insertVar m0 a.arg_name (scopeVarState a)) m

/-- The analysis step used to exhibit traversal-order dependence of the
output list: it marks two fresh bindings `New`. -/
def twoBindingsStep : AnalysisStep := fun _ st =>
  .ok ⟨insertVar (insertVar st.variable_states "b" ⟨"i32", false, VariableMoveState.New, none⟩)
        "c" ⟨"bool", false, VariableMoveState.New, none⟩,
      st.stored_variable_states⟩

/-! ### Helper lemmas about the variable map -/

theorem lookupVar_insertVar (m : VarMap) (k : String) (v : VariableState) (q : String) :
    lookupVar (insertVar m k v) q = if k = q then some v else lookupVar m q := by
  induction m with
  | nil => simp [insertVar, lookupVar]
  | cons hd tl ih =>
      obtain ⟨k0, v0⟩ := hd
      by_cases h0 : k0 = k
      · subst h0
        by_cases hq : k0 = q <;> simp [insertVar, lookupVar, hq]
      · by_cases hq : k0 = q
        · subst hq
          have hkq : ¬ k = k0 := fun h => h0 h.symm
          simp [insertVar, if_neg h0, lookupVar, hkq]
        · simp [insertVar, if_neg h0, lookupVar, if_neg hq, ih]

theorem varKeys_insertVar_mem (m : VarMap) (k : String) (v : VariableState)
    (h : k ∈ varKeys m) : varKeys (insertVar m k v) = varKeys m := by
  induction m with
  | nil => simp [varKeys] at h
  | cons hd tl ih =>
      obtain ⟨k0, v0⟩ := hd
      by_cases h0 : k0 = k
      · subst h0
        simp [insertVar, varKeys]
      · have hmem : k ∈ varKeys tl := by
          simp only [varKeys, List.map_cons, List.mem_cons] at h
          rcases h with h1 | h1
          · exact absurd h1.symm h0
          · exact h1
        have step : insertVar ((k0, v0) :: tl) k v = (k0, v0) :: insertVar tl k v := by
          simp [insertVar, if_neg h0]
        rw [step]
        show k0 :: varKeys (insertVar tl k v) = k0 :: varKeys tl
        rw [ih hmem]

theorem varKeys_insertVar_not_mem (m : VarMap) (k : String) (v : VariableState)
    (h : k ∉ varKeys m) : varKeys (insertVar m k v) = varKeys m ++ [k] := by
  induction m with
  | nil => simp [insertVar, varKeys]
  | cons hd tl ih =>
      obtain ⟨k0, v0⟩ := hd
      simp only [varKeys, List.map_cons, List.mem_cons] at h
      push_neg at h
      have hne : ¬ k0 = k := fun h0 => h.1 h0.symm
      have step : insertVar ((k0, v0) :: tl) k v = (k0, v0) :: insertVar tl k v := by
        simp [insertVar, if_neg hne]
      rw [step]
      show k0 :: varKeys (insertVar tl k v) = k0 :: (varKeys tl ++ [k])
      rw [ih h.2]

theorem mem_varKeys_insertVar (m : VarMap) (k : String) (v : VariableState) (q : String)
    (h : q ∈ varKeys m) : q ∈ varKeys (insertVar m k v) := by
  by_cases hk : k ∈ varKeys m
  · rw [varKeys_insertVar_mem m k v hk]; exact h
  · rw [varKeys_insertVar_not_mem m k v hk]; exact List.mem_append_left _ h

theorem nodup_varKeys_insertVar (m : VarMap) (k : String) (v : VariableState)
    (h : (varKeys m).Nodup) : (varKeys (insertVar m k v)).Nodup := by
  by_cases hk : k ∈ varKeys m
  · rw [varKeys_insertVar_mem m k v hk]; exact h
  · rw [varKeys_insertVar_not_mem m k v hk]
    simp [List.nodup_append, h, hk]

theorem lookupVar_eq_none (m : VarMap) (k : String) :
    lookupVar m k = none ↔ k ∉ varKeys m := by
  induction m with
  | nil => simp [lookupVar, varKeys]
  | cons hd tl ih =>
      obtain ⟨k0, v0⟩ := hd
      by_cases h0 : k0 = k
      · subst h0
        simp [lookupVar, varKeys]
      · have hne : ¬ k = k0 := fun h => h0 h.symm
        simp [lookupVar, if_neg h0, varKeys, List.mem_cons, hne, ih]

theorem load_scope_eq_loadFold (s : ContextState) (scope : List FunctionArg) :
    s.load_scope scope = ⟨loadFold s.variable_states scope, loadFold s.variable_states scope⟩ :=
  rfl

theorem loadFold_cons (m : VarMap) (a : FunctionArg) (t : List FunctionArg) :
    loadFold m (a :: t) = loadFold (insertVar m a.arg_name (scopeVarState a)) t :=
  rfl

/-- Lookup after loading a scope: the last scope entry with the queried
name wins; names not in the scope fall through to the base map. -/
theorem lookupVar_loadFold (scope : List FunctionArg) (m : VarMap) (q : String) :
    lookupVar (loadFold m scope) q =
      (scope.reverse.find? (fun a => a.arg_name == q)).elim
        (lookupVar m q) (fun a => some (scopeVarState a)) := by
  induction scope generalizing m with
  | nil => simp [loadFold]
  | cons a t ih =>
      rw [loadFold_cons, ih]
      simp only [List.reverse_cons, List.find?_append]
      cases hf : t.reverse.find? (fun a0 => a0.arg_name == q) with
      | some b => simp [Option.orElse]
      | none =>
          simp only [Option.orElse, Option.elim]
          rw [lookupVar_insertVar]
          cases hq : (a.arg_name == q) with
          | true =>
              have : a.arg_name = q := by simpa using hq
              simp [List.find?, hq, this]
          | false =>
              have : ¬ a.arg_name = q := by simpa using hq
              simp [List.find?, hq, this]

theorem mem_varKeys_loadFold (scope : List FunctionArg) (m : VarMap) (a : FunctionArg)
    (ha : a ∈ scope) : a.arg_name ∈ varKeys (loadFold m scope) := by
  have hfind : (scope.reverse.find? (fun a0 => a0.arg_name == a.arg_name)).isSome := by
    rw [List.find?_isSome]
    exact ⟨a, by simpa using ha, by simp⟩
  cases hf : scope.reverse.find? (fun a0 => a0.arg_name == a.arg_name) with
  | none => rw [hf] at hfind; simp at hfind
  | some b =>
      have hlook := lookupVar_loadFold scope m a.arg_name
      rw [hf] at hlook
      simp only [Option.elim] at hlook
      by_contra hmem
      rw [← lookupVar_eq_none] at hmem
      rw [hmem] at hlook
      exact Option.noConfusion hlook

theorem varKeys_loadFold_of_mem (scope : List FunctionArg) (m : VarMap)
    (h : ∀ a ∈ scope, a.arg_name ∈ varKeys m) :
    varKeys (loadFold m scope) = varKeys m := by
  induction scope generalizing m with
  | nil => simp [loadFold]
  | cons a t ih =>
      rw [loadFold_cons]
      have hk := varKeys_insertVar_mem m a.arg_name (scopeVarState a) (h a (by simp))
      rw [ih _ (fun b hb => by rw [hk]; exact h b (by simp [hb]))]
      exact hk

theorem nodup_varKeys_loadFold (scope : List FunctionArg) (m : VarMap)
    (h : (varKeys m).Nodup) : (varKeys (loadFold m scope)).Nodup := by
  induction scope generalizing m with
  | nil => simpa [loadFold]
  | cons a t ih =>
      rw [loadFold_cons]
      exact ih _ (nodup_varKeys_insertVar m a.arg_name (scopeVarState a) h)

/-- Extensionality for maps with no duplicate keys and the same key
sequence. -/
theorem varMap_ext (m1 m2 : VarMap) (hnd : (varKeys m1).Nodup)
    (hkeys : varKeys m1 = varKeys m2) (hlook : ∀ k, lookupVar m1 k = lookupVar m2 k) :
    m1 = m2 := by
  induction m1 generalizing m2 with
  | nil =>
      cases m2 with
      | nil => rfl
      | cons hd tl => simp [varKeys] at hkeys
  | cons hd tl ih =>
      obtain ⟨k0, v0⟩ := hd
      cases m2 with
      | nil => simp [varKeys] at hkeys
      | cons hd2 tl2 =>
          obtain ⟨k2, v2⟩ := hd2
          simp only [varKeys, List.map_cons, List.cons.injEq] at hkeys
          obtain ⟨hkeq, htleq⟩ := hkeys
          subst hkeq
          have hv : v0 = v2 := by
            have := hlook k0
            simpa [lookupVar] using this
          subst hv
          simp only [varKeys, List.map_cons, List.nodup_cons] at hnd
          have htl : tl = tl2 := by
            refine ih tl2 hnd.2 htleq (fun k => ?_)
            by_cases hk : k0 = k
            · subst hk
              have h1 : lookupVar tl k0 = none := by
                rw [lookupVar_eq_none]; exact hnd.1
              have h2 : lookupVar tl2 k0 = none := by
                rw [lookupVar_eq_none]
                show k0 ∉ List.map Prod.fst tl2
                rw [← htleq]
                exact hnd.1
              rw [h1, h2]
            · have := hlook k
              simpa [lookupVar, if_neg hk] using this
          rw [htl]

/-! ### Claim theorems -/

/-- C7: after `load_scope(bindings)` every listed name maps to a descriptor
with the given type (a later pair with the same name overwriting an earlier
one, so the last pair wins), `is_mut = false`, `move_state = Available`,
`definition_span = none`, while unlisted names keep their prior descriptor;
the stored baseline snapshot is structurally equal to the live variable map;
and calling `load_scope` again with the same bindings leaves the same state.
The hypothesis is the hash-map invariant that keys are not duplicated. -/
theorem load_scope_spec (s : ContextState) (scope : List FunctionArg)
    (hnd : (varKeys s.variable_states).Nodup) :
    (∀ q, lookupVar (s.load_scope scope).variable_states q =
        (scope.reverse.find? (fun a => a.arg_name == q)).elim
          (lookupVar s.variable_states q)
          (fun a => some ⟨a.arg_type, false, VariableMoveState.Available, none⟩)) ∧
    (s.load_scope scope).stored_variable_states = (s.load_scope scope).variable_states ∧
    (s.load_scope scope).load_scope scope = s.load_scope scope := by
  refine ⟨?_, rfl, ?_⟩
  · intro q
    rw [load_scope_eq_loadFold]
    exact lookupVar_loadFold scope s.variable_states q
  · have hkeys : ∀ a ∈ scope, a.arg_name ∈ varKeys (loadFold s.variable_states scope) :=
      fun a ha => mem_varKeys_loadFold scope s.variable_states a ha
    have hLnd : (varKeys (loadFold s.variable_states scope)).Nodup :=
      nodup_varKeys_loadFold scope s.variable_states hnd
    have hK : varKeys (loadFold (loadFold s.variable_states scope) scope) =
        varKeys (loadFold s.variable_states scope) :=
      varKeys_loadFold_of_mem scope (loadFold s.variable_states scope) hkeys
    have hL : ∀ q, lookupVar (loadFold (loadFold s.variable_states scope) scope) q =
        lookupVar (loadFold s.variable_states scope) q := by
      intro q
      rw [lookupVar_loadFold scope (loadFold s.variable_states scope) q,
        lookupVar_loadFold scope s.variable_states q]
      cases hf : scope.reverse.find? (fun a => a.arg_name == q) with
      | none => simp only [Option.elim]
      | some b => simp [Option.elim]
    have heq : loadFold (loadFold s.variable_states scope) scope =
        loadFold s.variable_states scope :=
      varMap_ext _ _ (nodup_varKeys_loadFold scope _ hLnd) hK hL
    rw [load_scope_eq_loadFold s scope, load_scope_eq_loadFold ⟨_, _⟩ scope]
    simp only [heq]

/-- C7 witness: a concrete prior state and a scope with a duplicated name;
the duplicated name maps to the descriptor of the last pair. -/
theorem load_scope_spec_checked :
    (varKeys (ContextState.mk [("z", ⟨"u8", false, VariableMoveState.Moved, none⟩)]
        []).variable_states).Nodup ∧
    lookupVar ((ContextState.mk [("z", ⟨"u8", false, VariableMoveState.Moved, none⟩)]
        []).load_scope [⟨"a", "i32"⟩, ⟨"a", "u64"⟩]).variable_states "a" =
      some ⟨"u64", false, VariableMoveState.Available, none⟩ := by
  refine ⟨by decide, ?_⟩
  have h := load_scope_spec
    (ContextState.mk [("z", ⟨"u8", false, VariableMoveState.Moved, none⟩)] [])
    [⟨"a", "i32"⟩, ⟨"a", "u64"⟩] (by decide)
  rw [h.1 "a"]
  rfl

/-- C1: when the collaborator pipeline (snippet application plus type
analysis, `hok`) succeeds, `find_outputs` succeeds and returns exactly the
bindings whose descriptor has `move_state == New` in the resulting
environment, as `(name, type)` entries; `Available`/`Moved` descriptors are
never in the output, and when no descriptor is `New` (a snippet that only
mutates existing bindings) the result is the empty list as a success. -/
theorem find_outputs_spec (step : AnalysisStep) (iter : IterOrder) (code : String)
    (scope : List FunctionArg) (st : ContextState)
    (hiter : ∀ m : VarMap, (iter m).Perm m)
    (hok : step code (ContextState.new.load_scope scope) = .ok st) :
    ∃ outs, find_outputs step iter code scope = .ok outs ∧
      (∀ n t, (⟨n, t⟩ : FunctionArg) ∈ outs ↔
        ∃ vs : VariableState, (n, vs) ∈ st.variable_states ∧
          vs.move_state = VariableMoveState.New ∧ vs.type_name = t) ∧
      ((∀ p ∈ st.variable_states, p.2.move_state ≠ VariableMoveState.New) → outs = []) := by
  have hfo : find_outputs step iter code scope =
      .ok (((iter st.variable_states).filter
              (fun p => decide (p.2.move_state = VariableMoveState.New))).map
            (fun p => ⟨p.1, p.2.type_name⟩)) := by
    unfold find_outputs
    rw [hok]
  refine ⟨_, hfo, ?_, ?_⟩
  · intro n t
    simp only [List.mem_map, List.mem_filter, decide_eq_true_eq]
    constructor
    · rintro ⟨⟨nm, vs⟩, ⟨hmem, hnew⟩, heq⟩
      have hm : (nm, vs) ∈ st.variable_states := (hiter _).mem_iff.mp hmem
      simp only [FunctionArg.mk.injEq] at heq
      obtain ⟨h1, h2⟩ := heq
      subst h1
      exact ⟨vs, hm, hnew, h2⟩
    · rintro ⟨vs, hm, hnew, ht⟩
      exact ⟨(n, vs), ⟨(hiter _).mem_iff.mpr hm, hnew⟩, by simp [ht]⟩
  · intro hnone
    have hfil : (iter st.variable_states).filter
        (fun p => decide (p.2.move_state = VariableMoveState.New)) = [] := by
      rw [List.filter_eq_nil_iff]
      intro p hp
      simp only [decide_eq_true_eq]
      exact hnone p ((hiter _).mem_iff.mp hp)
    rw [hfil]
    rfl

/-- C1 witness: scope `[a: i32]` and the mutation-only snippet `a += 1`,
with a pipeline step that introduces no new binding: inference succeeds
with the empty output list. -/
theorem find_outputs_spec_checked :
    (∀ m : VarMap, ((fun l => l) m : VarMap).Perm m) ∧
    (fun _ st => Except.ok st : AnalysisStep) "a += 1"
        (ContextState.new.load_scope [⟨"a", "i32"⟩]) =
      .ok (ContextState.new.load_scope [⟨"a", "i32"⟩]) ∧
    find_outputs (fun _ st => Except.ok st) (fun l => l) "a += 1" [⟨"a", "i32"⟩] =
      .ok [] := by
  refine ⟨fun m => List.Perm.refl m, rfl, ?_⟩
  obtain ⟨outs, hfo, _, hempty⟩ :=
    find_outputs_spec (fun _ st => Except.ok st) (fun l => l) "a += 1" [⟨"a", "i32"⟩]
      (ContextState.new.load_scope [⟨"a", "i32"⟩]) (fun m => List.Perm.refl m) rfl
  rw [hfo, hempty (by decide)]

/-- C2 counterexample: with the same snippet, scope and analysis behavior,
two traversal orders of the unordered variable map (both permutations, as
hash-map iteration is) make `find_outputs` succeed with differently ordered
output lists, so the order does depend on map traversal order. -/
theorem find_outputs_order_cex :
    (∀ m : VarMap, (List.reverse m).Perm m) ∧
    find_outputs twoBindingsStep (fun l => l) "let b = 2; let c = true;" [] =
      .ok [⟨"b", "i32"⟩, ⟨"c", "bool"⟩] ∧
    find_outputs twoBindingsStep List.reverse "let b = 2; let c = true;" [] =
      .ok [⟨"c", "bool"⟩, ⟨"b", "i32"⟩] ∧
    ([⟨"b", "i32"⟩, ⟨"c", "bool"⟩] : List FunctionArg) ≠ [⟨"c", "bool"⟩, ⟨"b", "i32"⟩] :=
  ⟨fun m => List.reverse_perm m, rfl, rfl, by decide⟩

/-- C2 (amended): for a fixed `(snippet, scope)` and fixed analysis
behavior, two successful runs of `find_outputs` under any two traversal
orders of the variable map return output lists with the same members (one
is a permutation of the other); the order itself is traversal-dependent. -/
theorem find_outputs_order_perm (step : AnalysisStep) (it1 it2 : IterOrder)
    (code : String) (scope : List FunctionArg) (l1 l2 : List FunctionArg)
    (h1 : ∀ m : VarMap, (it1 m).Perm m) (h2 : ∀ m : VarMap, (it2 m).Perm m)
    (ho1 : find_outputs step it1 code scope = .ok l1)
    (ho2 : find_outputs step it2 code scope = .ok l2) :
    l1.Perm l2 := by
  unfold find_outputs at ho1 ho2
  cases hstep : step code (ContextState.new.load_scope scope) with
  | error e =>
      rw [hstep] at ho1
      exact absurd ho1 (by simp)
  | ok st =>
      rw [hstep] at ho1 ho2
      simp only [Except.ok.injEq] at ho1 ho2
      subst ho1
      subst ho2
      exact (((h1 st.variable_states).trans (h2 st.variable_states).symm).filter _).map _

/-- C2 witness for the amended statement: the two concrete runs of the
counterexample have permutation-equal output lists. -/
theorem find_outputs_order_perm_checked :
    (∀ m : VarMap, ((fun l => l) m : VarMap).Perm m) ∧
    (∀ m : VarMap, (List.reverse m).Perm m) ∧
    List.Perm ([⟨"b", "i32"⟩, ⟨"c", "bool"⟩] : List FunctionArg)
      [⟨"c", "bool"⟩, ⟨"b", "i32"⟩] :=
  ⟨fun m => List.Perm.refl m, fun m => List.reverse_perm m,
    find_outputs_order_perm twoBindingsStep (fun l => l) List.reverse
      "let b = 2; let c = true;" [] _ _
      (fun m => List.Perm.refl m) (fun m => List.reverse_perm m) rfl rfl⟩

/-- C3: when output inference fails, `add_fn` returns that very error and
the registry is exactly what it was before the call — no record appended,
none changed. -/
theorem add_fn_error_keeps_registry (self : SharedLibFunctions) (step : AnalysisStep)
    (iter : IterOrder) (name fn_body : String) (scope : List FunctionArg) (e : Error)
    (h : find_outputs step iter fn_body scope = .error e) :
    self.add_fn step iter name fn_body scope = (.error e, self) := by
  unfold SharedLibFunctions.add_fn
  rw [h]

/-- C3 witness: a failing analysis step on a non-empty registry: the error
is propagated and the registry is unchanged. -/
theorem add_fn_error_keeps_registry_checked :
    find_outputs (fun _ _ => Except.error (Error.analysisFailure "E0282"))
        (fun l => l) "let v = Vec::new();" [] =
      .error (Error.analysisFailure "E0282") ∧
    SharedLibFunctions.add_fn ⟨[⟨"f", "1 + 1", [], []⟩]⟩
        (fun _ _ => Except.error (Error.analysisFailure "E0282")) (fun l => l)
        "g" "let v = Vec::new();" [] =
      (.error (Error.analysisFailure "E0282"), ⟨[⟨"f", "1 + 1", [], []⟩]⟩) :=
  ⟨rfl, add_fn_error_keeps_registry ⟨[⟨"f", "1 + 1", [], []⟩]⟩
    (fun _ _ => Except.error (Error.analysisFailure "E0282")) (fun l => l)
    "g" "let v = Vec::new();" [] (Error.analysisFailure "E0282") rfl⟩

/-- C6: a successful `add_fn(name, body, scope)` appends one record whose
`inputs` field is the caller-provided scope, element for element and in
order, with names and declared types as given (not re-inferred). -/
theorem add_fn_inputs_verbatim (self : SharedLibFunctions) (step : AnalysisStep)
    (iter : IterOrder) (name fn_body : String) (scope : List FunctionArg)
    (outs : List FunctionArg)
    (h : find_outputs step iter fn_body scope = .ok outs) :
    self.add_fn step iter name fn_body scope =
      (.ok (), ⟨self.functions ++ [⟨name, fn_body, scope, outs⟩]⟩) := by
  unfold SharedLibFunctions.add_fn
  rw [h]

/-- C6 witness: registering with a declared scope type `i32` stores that
scope verbatim as the record's inputs. -/
theorem add_fn_inputs_verbatim_checked :
    find_outputs (fun _ st => Except.ok st) (fun l => l) "a + 1" [⟨"a", "i32"⟩] =
      .ok [] ∧
    SharedLibFunctions.add_fn ⟨[]⟩ (fun _ st => Except.ok st) (fun l => l)
        "inc" "a + 1" [⟨"a", "i32"⟩] =
      (.ok (), ⟨[⟨"inc", "a + 1", [⟨"a", "i32"⟩], []⟩]⟩) :=
  ⟨rfl, add_fn_inputs_verbatim ⟨[]⟩ (fun _ st => Except.ok st) (fun l => l)
    "inc" "a + 1" [⟨"a", "i32"⟩] [] rfl⟩

theorem append_merge (x y z w : String) (h : y ++ z = w) :
    x ++ y ++ z = x ++ w := by
  rw [String.append_assoc, h]

/-- A record with no outputs renders with the empty aggregate `()` both as
return type and as the bundling expression. -/
theorem render_of_empty_outputs (f : ParsedFunction) (h : f.outputs = []) :
    f.render = "\n#[nomangle]\npub extern \"C\" fn " ++ f.name ++ "(" ++
      String.intercalate ", " (f.inputs.map (fun a => a.arg_name ++ ": " ++ a.arg_type)) ++
      ") -> () \x7b\n    " ++ f.fn_body ++ ";\n    ()\n\x7d\n" := by
  have step1 : f.render = "\n#[nomangle]\npub extern \"C\" fn " ++ f.name ++ "(" ++
      String.intercalate ", " (f.inputs.map (fun a => a.arg_name ++ ": " ++ a.arg_type)) ++
      ") -> (" ++ "" ++ ") \x7b\n    " ++ f.fn_body ++ ";\n    (" ++ "" ++ ")\n\x7d\n" := by
    simp [ParsedFunction.render, h, String.intercalate]
  rw [step1]
  simp only [String.append_empty]
  rw [append_merge _ ") -> (" ") \x7b\n    " ") -> () \x7b\n    " rfl]
  rw [append_merge _ ";\n    (" ")\n\x7d\n" ";\n    ()\n\x7d\n" rfl]

/-- C4: `code` emits, for each registered record in registration order, one
function definition whose parameter list joins `name: type` for each input
in input order separated by commas, whose return type is the tuple-like
aggregate of the output types in output order, and whose body is the
original snippet text followed by the expression bundling the output
binding names in the same order; when there are no outputs, both aggregates
are empty. -/
theorem code_emits_each_record (self : SharedLibFunctions) :
    self.code = String.join (self.functions.map (fun f =>
      "\n#[nomangle]\npub extern \"C\" fn " ++ f.name ++ "(" ++
        String.intercalate ", " (f.inputs.map (fun a => a.arg_name ++ ": " ++ a.arg_type)) ++
        ") -> (" ++
        String.intercalate " " (f.outputs.map (fun a => a.arg_type ++ ",")) ++
        ") \x7b\n    " ++ f.fn_body ++ ";\n    (" ++
        String.intercalate " " (f.outputs.map (fun a => a.arg_name ++ ",")) ++
        ")\n\x7d\n")) ∧
    ∀ f : ParsedFunction, f.outputs = [] →
      f.render = "\n#[nomangle]\npub extern \"C\" fn " ++ f.name ++ "(" ++
        String.intercalate ", " (f.inputs.map (fun a => a.arg_name ++ ": " ++ a.arg_type)) ++
        ") -> () \x7b\n    " ++ f.fn_body ++ ";\n    ()\n\x7d\n" := by
  constructor
  · unfold SharedLibFunctions.code String.join
    rw [List.foldl_map]
    rfl
  · exact fun f h => render_of_empty_outputs f h

/-- C4 witness: a record with one input and no outputs renders to the
expected text with parameter list `counter: i32` and the empty aggregate. -/
theorem code_emits_each_record_checked :
    (ParsedFunction.mk "reset" "counter = 0" [⟨"counter", "i32"⟩] []).outputs = [] ∧
    (ParsedFunction.mk "reset" "counter = 0" [⟨"counter", "i32"⟩] []).render =
      "\n#[nomangle]\npub extern \"C\" fn reset(counter: i32) -> () \x7b\n    counter = 0;\n    ()\n\x7d\n" := by
  refine ⟨rfl, ?_⟩
  rw [(code_emits_each_record ⟨[]⟩).2
    (ParsedFunction.mk "reset" "counter = 0" [⟨"counter", "i32"⟩] []) rfl]
  rfl

set_option maxRecDepth 4096 in
/-- C5 (code bug): the emitted marker is the misspelled `#[nomangle]`; the
Rust attribute that actually suppresses symbol renaming, `#[no_mangle]`,
appears nowhere in the emitted source. Evaluated at the registry obtained
from the registration of the crate's own test (`add`, scope `a: i32`,
output `b: i32`). -/
theorem code_marker_misspelled :
    SharedLibFunctions.code ⟨[⟨"add", "let b = 2;\n a + b", [⟨"a", "i32"⟩], [⟨"b", "i32"⟩]⟩]⟩ =
      "\n#[nomangle]\npub extern \"C\" fn add(a: i32) -> (i32,) \x7b\n    let b = 2;\n a + b;\n    (b,)\n\x7d\n" ∧
    List.IsInfix "#[nomangle]".data
      (SharedLibFunctions.code
        ⟨[⟨"add", "let b = 2;\n a + b", [⟨"a", "i32"⟩], [⟨"b", "i32"⟩]⟩]⟩).data ∧
    ¬ List.IsInfix "#[no_mangle]".data
      (SharedLibFunctions.code
        ⟨[⟨"add", "let b = 2;\n a + b", [⟨"a", "i32"⟩], [⟨"b", "i32"⟩]⟩]⟩).data :=
  ⟨rfl, by decide, by decide⟩

/-- C8: the workspace path placed in the configuration is always absolute
(given that the current working directory returned by the system is
absolute): an absolute temporary path is kept as is, a relative one is
joined onto the current working directory. -/
theorem tmp_config_absolute (t c : Path) (hc : c.absolute = true) :
    ((tmp_config t c).tmpdir.absolute = true) ∧
    (t.is_absolute = true → (tmp_config t c).tmpdir = t) ∧
    (t.is_absolute = false → (tmp_config t c).tmpdir = c.join t) := by
  by_cases ht : t.absolute
  · refine ⟨?_, fun _ => ?_, fun hf => ?_⟩ <;>
      simp_all [tmp_config, create_initial_config, Path.is_absolute, Path.join]
  · refine ⟨?_, fun htr => ?_, fun _ => ?_⟩ <;>
      simp_all [tmp_config, create_initial_config, Path.is_absolute, Path.join]

/-- C8 witness: a relative temporary directory under an absolute working
directory resolves to their join, which is absolute. -/
theorem tmp_config_absolute_checked :
    (Path.mk true ["root"]).absolute = true ∧
    (tmp_config (Path.mk false ["tmp", "evcxr-abc"]) (Path.mk true ["root"])).tmpdir.absolute =
      true ∧
    (tmp_config (Path.mk false ["tmp", "evcxr-abc"]) (Path.mk true ["root"])).tmpdir =
      (Path.mk true ["root"]).join (Path.mk false ["tmp", "evcxr-abc"]) := by
  have h := tmp_config_absolute (Path.mk false ["tmp", "evcxr-abc"]) (Path.mk true ["root"]) rfl
  exact ⟨rfl, h.1, h.2.2 rfl⟩

/-- C9: the registry is append-only — one `add_fn` call leaves the old
record list a prefix of the new one and grows it by at most one — and after
two successful `add_fn` calls on the empty registry, `code` is exactly the
two records' definitions in registration order, the zero-output record
rendering with the empty aggregate return. -/
theorem registry_append_only :
    (∀ (self : SharedLibFunctions) (step : AnalysisStep) (iter : IterOrder)
        (name fn_body : String) (scope : List FunctionArg),
      self.functions <+: (self.add_fn step iter name fn_body scope).2.functions ∧
      (self.add_fn step iter name fn_body scope).2.functions.length ≤
        self.functions.length + 1) ∧
    (∀ (st1 st2 : AnalysisStep) (it1 it2 : IterOrder) (n1 b1 n2 b2 : String)
        (sc1 sc2 : List FunctionArg) (s1 s2 : SharedLibFunctions),
      SharedLibFunctions.add_fn ⟨[]⟩ st1 it1 n1 b1 sc1 = (.ok (), s1) →
      s1.add_fn st2 it2 n2 b2 sc2 = (.ok (), s2) →
      ∃ r1 r2, s2.functions = [r1, r2] ∧ r1.name = n1 ∧ r2.name = n2 ∧
        s2.code = r1.render ++ r2.render ∧
        (r2.outputs = [] →
          r2.render = "\n#[nomangle]\npub extern \"C\" fn " ++ n2 ++ "(" ++
            String.intercalate ", " (sc2.map (fun a => a.arg_name ++ ": " ++ a.arg_type)) ++
            ") -> () \x7b\n    " ++ b2 ++ ";\n    ()\n\x7d\n")) := by
  constructor
  · intro self step iter name fn_body scope
    unfold SharedLibFunctions.add_fn
    cases hfo : find_outputs step iter fn_body scope with
    | error e => exact ⟨List.prefix_refl _, by simp⟩
    | ok outs => exact ⟨List.prefix_append _ _, by simp⟩
  · intro st1 st2 it1 it2 n1 b1 n2 b2 sc1 sc2 s1 s2 h1 h2
    unfold SharedLibFunctions.add_fn at h1 h2
    cases hfo1 : find_outputs st1 it1 b1 sc1 with
    | error e => rw [hfo1] at h1; simp at h1
    | ok o1 =>
        rw [hfo1] at h1
        simp only [Prod.mk.injEq] at h1
        obtain ⟨-, hs1⟩ := h1
        cases hfo2 : find_outputs st2 it2 b2 sc2 with
        | error e => rw [hfo2] at h2; simp at h2
        | ok o2 =>
            rw [hfo2] at h2
            simp only [Prod.mk.injEq] at h2
            obtain ⟨-, hs2⟩ := h2
            refine ⟨⟨n1, b1, sc1, o1⟩, ⟨n2, b2, sc2, o2⟩, ?_, rfl, rfl, ?_, ?_⟩
            · rw [← hs2, ← hs1]
              rfl
            · rw [← hs2, ← hs1]
              show ("" ++ ParsedFunction.render _) ++ ParsedFunction.render _ = _
              rw [String.empty_append]
            · exact fun h => render_of_empty_outputs ⟨n2, b2, sc2, o2⟩ h

/-- C9 witness: two concrete registrations, both with no outputs; the
registry holds exactly the two records in order and renders both. -/
theorem registry_append_only_checked :
    SharedLibFunctions.add_fn ⟨[]⟩ (fun _ st => Except.ok st) (fun l => l)
        "f1" "a + 1" [⟨"a", "i32"⟩] =
      (.ok (), ⟨[⟨"f1", "a + 1", [⟨"a", "i32"⟩], []⟩]⟩) ∧
    SharedLibFunctions.add_fn ⟨[⟨"f1", "a + 1", [⟨"a", "i32"⟩], []⟩]⟩
        (fun _ st => Except.ok st) (fun l => l) "f2" "a - 1" [⟨"a", "i32"⟩] =
      (.ok (), ⟨[⟨"f1", "a + 1", [⟨"a", "i32"⟩], []⟩, ⟨"f2", "a - 1", [⟨"a", "i32"⟩], []⟩]⟩) ∧
    (∃ r1 r2,
      (SharedLibFunctions.mk [⟨"f1", "a + 1", [⟨"a", "i32"⟩], []⟩,
          ⟨"f2", "a - 1", [⟨"a", "i32"⟩], []⟩]).functions = [r1, r2] ∧
      r1.name = "f1" ∧ r2.name = "f2" ∧
      (SharedLibFunctions.mk [⟨"f1", "a + 1", [⟨"a", "i32"⟩], []⟩,
          ⟨"f2", "a - 1", [⟨"a", "i32"⟩], []⟩]).code = r1.render ++ r2.render ∧
      (r2.outputs = [] →
        r2.render = "\n#[nomangle]\npub extern \"C\" fn " ++ "f2" ++ "(" ++
          String.intercalate ", "
            (([⟨"a", "i32"⟩] : List FunctionArg).map
              (fun a => a.arg_name ++ ": " ++ a.arg_type)) ++
          ") -> () \x7b\n    " ++ "a - 1" ++ ";\n    ()\n\x7d\n")) :=
  ⟨rfl, rfl, registry_append_only.2 (fun _ st => Except.ok st) (fun _ st => Except.ok st)
    (fun l => l) (fun l => l) "f1" "a + 1" "f2" "a - 1" [⟨"a", "i32"⟩] [⟨"a", "i32"⟩]
    ⟨[⟨"f1", "a + 1", [⟨"a", "i32"⟩], []⟩]⟩
    ⟨[⟨"f1", "a + 1", [⟨"a", "i32"⟩], []⟩, ⟨"f2", "a - 1", [⟨"a", "i32"⟩], []⟩]⟩ rfl rfl⟩

/-- C10: a scope with duplicated binding names is stored verbatim by
`add_fn` (both entries appear among the record's inputs, so the rendered
parameter list repeats the name), while the environment loaded for
inference keeps exactly one descriptor per name, the last occurrence
winning. -/
theorem duplicate_scope_entries (self : SharedLibFunctions) (step : AnalysisStep)
    (iter : IterOrder) (name fn_body : String) (scope : List FunctionArg)
    (outs : List FunctionArg)
    (h : find_outputs step iter fn_body scope = .ok outs) :
    (∃ r, (self.add_fn step iter name fn_body scope).2.functions =
        self.functions ++ [r] ∧ r.inputs = scope ∧
        String.intercalate ", " (r.inputs.map (fun a => a.arg_name ++ ": " ++ a.arg_type)) =
          String.intercalate ", " (scope.map (fun a => a.arg_name ++ ": " ++ a.arg_type))) ∧
    (∀ q, lookupVar (ContextState.new.load_scope scope).variable_states q =
      (scope.reverse.find? (fun a => a.arg_name == q)).elim none
        (fun a => some ⟨a.arg_type, false, VariableMoveState.Available, none⟩)) := by
  constructor
  · refine ⟨⟨name, fn_body, scope, outs⟩, ?_, rfl, rfl⟩
    unfold SharedLibFunctions.add_fn
    rw [h]
  · intro q
    rw [load_scope_eq_loadFold]
    exact lookupVar_loadFold scope ([] : VarMap) q

/-- C10 witness: scope `[x: i32, x: f64]`: both entries are stored as
inputs, while the loaded environment maps `x` to the `f64` descriptor. -/
theorem duplicate_scope_entries_checked :
    find_outputs (fun _ st => Except.ok st) (fun l => l) "x + 1"
        [⟨"x", "i32"⟩, ⟨"x", "f64"⟩] = .ok [] ∧
    (∃ r, ((SharedLibFunctions.mk []).add_fn (fun _ st => Except.ok st) (fun l => l)
        "dup" "x + 1" [⟨"x", "i32"⟩, ⟨"x", "f64"⟩]).2.functions = [] ++ [r] ∧
      r.inputs = [⟨"x", "i32"⟩, ⟨"x", "f64"⟩]) ∧
    lookupVar (ContextState.new.load_scope
        [⟨"x", "i32"⟩, ⟨"x", "f64"⟩]).variable_states "x" =
      some ⟨"f64", false, VariableMoveState.Available, none⟩ := by
  have h := duplicate_scope_entries (SharedLibFunctions.mk []) (fun _ st => Except.ok st)
    (fun l => l) "dup" "x + 1" [⟨"x", "i32"⟩, ⟨"x", "f64"⟩] [] rfl
  refine ⟨rfl, ?_, ?_⟩
  · obtain ⟨r, hr1, hr2, -⟩ := h.1
    exact ⟨r, hr1, hr2⟩
  · rw [h.2 "x"]
    rfl

end Compilation
